import Mathlib

/-!
Verification of the polygon boolean-algebra / convex-hull repository
(`point.rs`, `intersection.rs`, `polygon.rs`).

The Rust code computes over `f64`.  We embed `f64` as an inductive type
`F` carrying an exact rational for finite values plus the three special
values `+inf`, `-inf` and `NaN`, with IEEE-754 comparison and arithmetic
semantics on those cases (rounding and overflow of finite arithmetic are
not modelled; all concrete inputs in this development stay in the exactly
representable range).  Rust operations that can panic — the `sort_by`
calls whose comparator `unwrap`s a `partial_cmp` that is `None` on NaN —
are embedded as `Option`-returning functions, `none` modelling the abort.
`BTreeSet<Point>` is embedded as a list kept sorted and deduplicated by
the `Ord for Point` implementation of `point.rs`.
-/

/-- Embedding of `f64`: an exact rational for finite doubles, plus the
IEEE special values. -/
inductive F where
  | fin (q : ℚ)
  | pinf
  | ninf
  | nan
deriving DecidableEq, Repr

namespace F

/-- Embeds `f64::is_finite`. -/
def isFinite : F → Bool
  | fin _ => true
  | _ => false

/-- Embeds `f64::is_nan`. -/
def isNan : F → Bool
  | nan => true
  | _ => false

/-- IEEE negation. -/
def neg : F → F
  | fin q => fin (-q)
  | pinf => ninf
  | ninf => pinf
  | nan => nan

/-- IEEE addition (finite arithmetic exact; overflow not modelled). -/
def add : F → F → F
  | nan, _ => nan
  | _, nan => nan
  | fin a, fin b => fin (a + b)
  | pinf, ninf => nan
  | ninf, pinf => nan
  | pinf, _ => pinf
  | _, pinf => pinf
  | ninf, _ => ninf
  | _, ninf => ninf

/-- IEEE subtraction, `a - b = a + (-b)`. -/
def sub (a b : F) : F := a.add b.neg

/-- IEEE multiplication (signed zero not modelled: `0 * inf = NaN` in
either sign, as in IEEE). -/
def mul : F → F → F
  | nan, _ => nan
  | _, nan => nan
  | fin a, fin b => fin (a * b)
  | fin a, pinf => if 0 < a then pinf else if a < 0 then ninf else nan
  | fin a, ninf => if 0 < a then ninf else if a < 0 then pinf else nan
  | pinf, fin b => if 0 < b then pinf else if b < 0 then ninf else nan
  | ninf, fin b => if 0 < b then ninf else if b < 0 then pinf else nan
  | pinf, pinf => pinf
  | pinf, ninf => ninf
  | ninf, pinf => ninf
  | ninf, ninf => pinf

/-- IEEE division (signed zero not modelled: a nonzero finite divided by
zero is an infinity whose sign follows the numerator). -/
def div : F → F → F
  | nan, _ => nan
  | _, nan => nan
  | fin a, fin b =>
      if b = 0 then (if a = 0 then nan else if 0 < a then pinf else ninf)
      else fin (a / b)
  | fin _, pinf => fin 0
  | fin _, ninf => fin 0
  | pinf, fin b => if b < 0 then ninf else pinf
  | ninf, fin b => if b < 0 then pinf else ninf
  | pinf, pinf => nan
  | pinf, ninf => nan
  | ninf, pinf => nan
  | ninf, ninf => nan

/-- IEEE `<`: false whenever either operand is NaN. -/
def lt : F → F → Bool
  | nan, _ => false
  | _, nan => false
  | fin a, fin b => a < b
  | ninf, ninf => false
  | ninf, _ => true
  | _, ninf => false
  | pinf, _ => false
  | fin _, pinf => true

/-- IEEE `<=`: false whenever either operand is NaN. -/
def le : F → F → Bool
  | nan, _ => false
  | _, nan => false
  | fin a, fin b => a ≤ b
  | ninf, _ => true
  | _, ninf => false
  | _, pinf => true
  | pinf, fin _ => false

/-- IEEE `==` (`PartialEq for f64`): false whenever either operand is
NaN; each infinity equals itself. -/
def beq : F → F → Bool
  | nan, _ => false
  | _, nan => false
  | fin a, fin b => a = b
  | pinf, pinf => true
  | ninf, ninf => true
  | _, _ => false

/-- Embeds `f64::partial_cmp`: `none` iff either operand is NaN. -/
def pcmp (a b : F) : Option Ordering :=
  if a.isNan || b.isNan then none
  else if a.lt b then some .lt
  else if b.lt a then some .gt
  else some .eq

end F

/-- Embeds `Point` from `point.rs`. -/
structure Point where
  x : F
  y : F
deriving DecidableEq, Repr

namespace Point

/-- Embeds `impl Sub for Point`. -/
def sub (a b : Point) : Point := ⟨a.x.sub b.x, a.y.sub b.y⟩

/-- Embeds `Point::cross`: `self.x * other.y - self.y * other.x`. -/
def cross (a b : Point) : F := (a.x.mul b.y).sub (a.y.mul b.x)

/-- Embeds `impl PartialEq for Point`: componentwise IEEE equality. -/
def beq (a b : Point) : Bool := a.x.beq b.x && a.y.beq b.y

/-- Embeds `impl Ord for Point`: lexicographic via IEEE `<` and `>`,
falling through to `Equal` when no comparison succeeds. -/
def cmp (a b : Point) : Ordering :=
  if a.x.lt b.x then .lt
  else if b.x.lt a.x then .gt
  else if a.y.lt b.y then .lt
  else if b.y.lt a.y then .gt
  else .eq

end Point

/-- Embeds `LineSegment` from `polygon.rs`. -/
structure LineSegment where
  p1 : Point
  p2 : Point
deriving DecidableEq, Repr

/-- Embeds `intersection` from `intersection.rs`: intersection of a segment's
(infinite) line with the horizontal scanline at `y`. -/
def intersection (segment : LineSegment) (y : F) : F × F :=
  let x1 := segment.p1.x
  let y1 := segment.p1.y
  let x2 := segment.p2.x
  let y2 := segment.p2.y
  if x1.beq x2 then
    (x1, y)
  else
    let m := (y2.sub y1).div (x2.sub x1)
    let b := y1.sub (m.mul x1)
    ((y.sub b).div m, y)

/-- Embeds `Polygon` from `polygon.rs`. -/
structure Polygon where
  points : List Point
deriving DecidableEq, Repr

namespace Polygon

/-- Embeds `Polygon::edges`: segment `i` connects `points[i]` to
`points[(i+1) % n]`, encoded as zipping the point list with its
one-step rotation. -/
def edges (self : Polygon) : List LineSegment :=
  self.points.zipWith LineSegment.mk (self.points.rotate 1)

/-- Embeds `Polygon::centroid`: arithmetic mean of the vertex coordinates
(`0/0 = NaN` for the empty polygon, as in IEEE). -/
def centroid (self : Polygon) : Point :=
  let xSum := self.points.foldl (fun s p => s.add p.x) (F.fin 0)
  let ySum := self.points.foldl (fun s p => s.add p.y) (F.fin 0)
  let n := F.fin ((self.points.length : ℚ))
  ⟨xSum.div n, ySum.div n⟩

end Polygon

/-- One insertion into the `BTreeSet<Point>` model: a list kept sorted
by `Point.cmp`; an element comparing `Equal` to a present one is not
inserted (Rust `BTreeSet::insert` keeps the existing value). -/
def btreeInsert (p : Point) : List Point → List Point
  | [] => [p]
  | q :: rest =>
    match p.cmp q with
    | .lt => p :: q :: rest
    | .eq => q :: rest
    | .gt => q :: btreeInsert p rest

/-- Embeds `BTreeSet::remove` on the model: removes the (first) element
comparing `Equal` to `p`. -/
def btreeRemove (p : Point) : List Point → List Point
  | [] => []
  | q :: rest =>
    match p.cmp q with
    | .lt => q :: rest
    | .eq => rest
    | .gt => q :: btreeRemove p rest

/-- Build a `BTreeSet<Point>` from a list by successive insertion. -/
def btreeOfList (l : List Point) : List Point :=
  l.foldl (fun s p => btreeInsert p s) []

/-- One step of a stable insertion sort under a fallible comparator
(`Vec::sort_by` whose comparator `unwrap`s a `partial_cmp`): `none`
models the panic.  The element moves ahead only of strictly greater
elements, so equal elements keep their original order, matching the
stability guarantee of `sort_by`. -/
def insertSorted (c : Point → Point → Option Ordering) (p : Point) :
    List Point → Option (List Point)
  | [] => some [p]
  | q :: rest =>
    match c p q with
    | none => none
    | some .lt => some (p :: q :: rest)
    | some _ => (insertSorted c p rest).map (fun l => q :: l)

/-- Stable sort of the remaining list into the accumulator. -/
def sortAux (c : Point → Point → Option Ordering) (acc : List Point) :
    List Point → Option (List Point)
  | [] => some acc
  | p :: rest =>
    match insertSorted c p acc with
    | none => none
    | some acc2 => sortAux c acc2 rest

/-- Embeds `Vec::sort_by` with a fallible comparator, as a stable sort. -/
def sortOpt (c : Point → Point → Option Ordering) (l : List Point) :
    Option (List Point) :=
  sortAux c [] l

/-- The comparator `p1.y.partial_cmp(&p2.y)` used by every y-sort. -/
def ycmp (a b : Point) : Option Ordering := a.y.pcmp b.y

/-- The counter-clockwise comparator used to order result points around
a centroid: `(p2 - c).cross(p1 - c).partial_cmp(&0.0)`. -/
def ccwCmp (c : Point) (p1 p2 : Point) : Option Ordering :=
  ((p2.sub c).cross (p1.sub c)).pcmp (F.fin 0)

/-- One edge's contribution to a scanline's intersection set: the
intersection is kept iff its x-coordinate is finite. -/
def interStep (y : F) (s : List Point) (e : LineSegment) : List Point :=
  let r := intersection e y
  if r.1.isFinite then btreeInsert ⟨r.1, y⟩ s else s

/-- The deduplicated finite intersections of the scanline at `y` with
every edge of `other` (the `intersections` set of `difference` /
`fixed_difference`). -/
def interPts (other : Polygon) (y : F) : List Point :=
  other.edges.foldl (interStep y) []

/-- The `intersections` set of `union`: both polygons' edges feed one
set, `self`'s first. -/
def interPtsBoth (self other : Polygon) (y : F) : List Point :=
  other.edges.foldl (interStep y) (self.edges.foldl (interStep y) [])

/-- Loop state of `Polygon::union`: previous scanline y and result set. -/
structure UnionState where
  y : F
  result : List Point
deriving DecidableEq, Repr

/-- Loop body of `Polygon::union`. -/
def unionStep (self other : Polygon) (st : UnionState) (p : Point) :
    UnionState :=
  if (p.y.beq st.y) = false then
    let inters := interPtsBoth self other p.y
    { y := p.y, result := inters.foldl (fun r q => btreeInsert q r) st.result }
  else st

/-- Embeds `Polygon::union`: seeds the set with both polygons' vertices, sorts
by y (panics on NaN — modelled by `none`), and inserts every finite
scanline/edge intersection; the result is the set in `Point.cmp` order. -/
def Polygon.union (self other : Polygon) : Option Polygon :=
  let seed := btreeOfList (self.points ++ other.points)
  match sortOpt ycmp seed with
  | none => none
  | some pts =>
    some ⟨(pts.foldl (unionStep self other) ⟨F.ninf, seed⟩).result⟩

/-- Loop state of `Polygon::difference`: previous scanline y, the
`inside` flag, and the result set. -/
structure DiffState where
  y : F
  inside : Bool
  result : List Point
deriving DecidableEq, Repr

/-- Loop body of `Polygon::difference`: on a new scanline recompute the
intersections of the scanline with `other`'s edges and toggle `inside`
iff their count is even; then (on every iteration) remove the current
point from the result when `inside` is set. -/
def diffStep (other : Polygon) (st : DiffState) (p : Point) : DiffState :=
  let st1 :=
    if (p.y.beq st.y) = false then
      let inters := interPts other p.y
      let ins := if inters.length % 2 == 0 then !st.inside else st.inside
      { y := p.y, inside := ins, result := st.result }
    else st
  if st1.inside then { st1 with result := btreeRemove p st1.result } else st1

/-- Embeds `Polygon::difference`: seed with `self`'s vertices, run the scanline
sweep removing points, then sort the survivors counter-clockwise around
`self`'s centroid.  Either sort's panic is modelled by `none`. -/
def Polygon.difference (self other : Polygon) : Option Polygon :=
  let seed := btreeOfList self.points
  match sortOpt ycmp seed with
  | none => none
  | some pts =>
    let fs := pts.foldl (diffStep other) ⟨F.ninf, false, seed⟩
    match sortOpt (ccwCmp self.centroid) fs.result with
    | none => none
    | some sorted => some ⟨sorted⟩

/-- Loop state of `Polygon::fixed_difference`: previous scanline y, the
`inside` flag, the result set, and the emitted polygons (as point
lists, in emission order). -/
structure FDState where
  y : F
  inside : Bool
  result : List Point
  polys : List (List Point)
deriving DecidableEq, Repr

/-- The new-scanline block of `Polygon::fixed_difference` (everything
inside `if point.y != y`): update y, recompute intersections, toggle
`inside` on an even count; when inside remove the point, otherwise if
the scanline had intersections flush the result set (sorted
counter-clockwise around `self`'s centroid) as a polygon and clear it. -/
def fdScan (self other : Polygon) (st : FDState) (p : Point) :
    Option FDState :=
  if (p.y.beq st.y) = false then
    let inters := interPts other p.y
    let ins := if inters.length % 2 == 0 then !st.inside else st.inside
    if ins then
      some { y := p.y, inside := ins, result := btreeRemove p st.result,
             polys := st.polys }
    else if inters.isEmpty = false then
      match sortOpt (ccwCmp self.centroid) st.result with
      | none => none
      | some sorted =>
        some { y := p.y, inside := ins, result := [],
               polys := st.polys ++ [sorted] }
    else
      some { y := p.y, inside := ins, result := st.result, polys := st.polys }
  else some st

/-- The trailing block of `Polygon::fixed_difference`'s loop body: on
every iteration, if the result set is non-empty, emit one more polygon
from it (sorted counter-clockwise) without clearing the set. -/
def fdTrail (self : Polygon) (st : FDState) : Option FDState :=
  if st.result.isEmpty = false then
    match sortOpt (ccwCmp self.centroid) st.result with
    | none => none
    | some sorted => some { st with polys := st.polys ++ [sorted] }
  else some st

/-- One full iteration of `Polygon::fixed_difference`'s loop. -/
def fdStep (self other : Polygon) (st : FDState) (p : Point) :
    Option FDState :=
  match fdScan self other st p with
  | none => none
  | some st1 => fdTrail self st1

/-- The loop of `Polygon::fixed_difference` over the y-sorted points. -/
def fdLoop (self other : Polygon) (st : FDState) :
    List Point → Option FDState
  | [] => some st
  | p :: rest =>
    match fdStep self other st p with
    | none => none
    | some st2 => fdLoop self other st2 rest

/-- Embeds `Polygon::fixed_difference` (the spec's `splitDifference`): seed the
set with both polygons' vertices, sweep, and return the emitted
polygons. -/
def Polygon.fixed_difference (self other : Polygon) :
    Option (List Polygon) :=
  let seed := btreeOfList (self.points ++ other.points)
  match sortOpt ycmp seed with
  | none => none
  | some pts =>
    match fdLoop self other ⟨F.ninf, false, seed, []⟩ pts with
    | none => none
    | some stf => some (stf.polys.map Polygon.mk)

/-- The pop loop of a hull chain, on the accumulated result as a stack
(head = last pushed): while the result holds at least `thr` points and
the last two points and the candidate form a non-left turn
(cross product `<= 0.0`), pop. -/
def popWhile (thr : Nat) (p : Point) : List Point → List Point
  | a :: b :: rest =>
    if (decide (thr ≤ rest.length + 2) &&
        ((b.sub a).cross (p.sub a)).le (F.fin 0)) = true then
      popWhile thr p (b :: rest)
    else a :: b :: rest
  | l => l

/-- One hull chain: fold the candidate points into the accumulated
stack, popping non-left turns first. -/
def chainFold (thr : Nat) (acc : List Point) (pts : List Point) :
    List Point :=
  pts.foldl (fun s p => p :: popWhile thr p s) acc

/-- Embeds `Polygon::convex_hull`: copy the points, sort by y (panic on NaN
modelled by `none`), build the lower chain with threshold 2, then the
upper chain over the reversed order with threshold `lower.length + 1`,
appending onto the same vector. -/
def Polygon.convex_hull (self : Polygon) : Option Polygon :=
  match sortOpt ycmp self.points with
  | none => none
  | some sorted =>
    let lower := chainFold 2 [] sorted
    let n := lower.length + 1
    let upper := chainFold n lower sorted.reverse
    some ⟨upper.reverse⟩

/-- Shorthand for a point with finite rational coordinates. -/
def fp (a b : ℚ) : Point := ⟨F.fin a, F.fin b⟩

/-- The point list of an optional polygon (`[]` for `none`). -/
def pointsOf : Option Polygon → List Point
  | some r => r.points
  | none => []

/-- The axis-aligned square used throughout the repository's own test
properties. -/
def squarePoly : Polygon := ⟨[fp 0 0, fp 2 0, fp 2 2, fp 0 2]⟩

/-- The empty polygon. -/
def emptyPoly : Polygon := ⟨[]⟩

/-- A polygon with one vertical edge whose infinite extension passes a
non-vertex point at another vertex's scanline. -/
def slantPoly : Polygon := ⟨[fp 0 0, fp 2 0, fp 2 2, fp 0 4]⟩

/-- Square corners plus the strictly interior point `(1,1)`. -/
def hullInput : Polygon := ⟨[fp 0 0, fp 2 0, fp 2 2, fp 0 2, fp 1 1]⟩

/-- A triangle far to the right of `squarePoly` whose edge lines meet
each scanline `y ∈ {0, 2}` in exactly three distinct finite points. -/
def oddTri : Polygon := ⟨[fp 10 (-1), fp 13 1, fp 10 6]⟩

/-- A polygon with a NaN y-coordinate on its second vertex. -/
def nanPoly : Polygon := ⟨[fp 0 0, ⟨F.fin 1, F.nan⟩]⟩

/-- Both coordinates of a point are finite doubles. -/
def Point.allFinite (p : Point) : Prop :=
  p.x.isFinite = true ∧ p.y.isFinite = true

theorem F.lt_irrefl (a : F) : a.lt a = false := by
  cases a <;> simp [F.lt]

theorem F.isNan_eq_false_of_isFinite {a : F} (h : a.isFinite = true) :
    a.isNan = false := by
  cases a <;> simp_all [F.isFinite, F.isNan]

theorem F.isFinite_add {a b : F} (ha : a.isFinite = true)
    (hb : b.isFinite = true) : (a.add b).isFinite = true := by
  cases a <;> cases b <;> simp_all [F.isFinite, F.add]

theorem F.isFinite_neg {a : F} (ha : a.isFinite = true) :
    a.neg.isFinite = true := by
  cases a <;> simp_all [F.isFinite, F.neg]

theorem F.isFinite_sub {a b : F} (ha : a.isFinite = true)
    (hb : b.isFinite = true) : (a.sub b).isFinite = true :=
  F.isFinite_add ha (F.isFinite_neg hb)

theorem F.isFinite_mul {a b : F} (ha : a.isFinite = true)
    (hb : b.isFinite = true) : (a.mul b).isFinite = true := by
  cases a <;> cases b <;> simp_all [F.isFinite, F.mul]

theorem F.pcmp_isSome {a b : F} (ha : a.isNan = false)
    (hb : b.isNan = false) : (F.pcmp a b).isSome = true := by
  simp only [F.pcmp, ha, hb]
  split <;> (try split) <;> (try split) <;> simp_all

/-- On two points with finite coordinates, `Point.cmp` returning
`Equal` forces the points to be equal (the lexicographic order is a
genuine total order away from NaN). -/
theorem Point.cmp_eq_of_allFinite {p q : Point} (hp : p.allFinite)
    (hq : q.allFinite) (h : p.cmp q = .eq) : p = q := by
  obtain ⟨hpx, hpy⟩ := hp
  obtain ⟨hqx, hqy⟩ := hq
  obtain ⟨a, ha⟩ : ∃ a, p.x = F.fin a := by
    cases hx : p.x <;> simp_all [F.isFinite]
  obtain ⟨b, hb⟩ : ∃ b, q.x = F.fin b := by
    cases hx : q.x <;> simp_all [F.isFinite]
  obtain ⟨c, hc⟩ : ∃ c, p.y = F.fin c := by
    cases hy : p.y <;> simp_all [F.isFinite]
  obtain ⟨d, hd⟩ : ∃ d, q.y = F.fin d := by
    cases hy : q.y <;> simp_all [F.isFinite]
  simp only [Point.cmp, ha, hb, hc, hd, F.lt] at h
  have hab : a = b := by
    by_contra hne
    rcases lt_or_gt_of_ne hne with hl | hl <;> simp [hl, not_lt.mpr hl.le] at h
  subst hab
  have hcd : c = d := by
    by_contra hne
    rcases lt_or_gt_of_ne hne with hl | hl <;> simp [hl, not_lt.mpr hl.le] at h
  cases p; cases q; simp_all

theorem btreeInsert_mem_mono {q : Point} {s : List Point} (p : Point)
    (h : q ∈ s) : q ∈ btreeInsert p s := by
  induction s with
  | nil => simp at h
  | cons a rest ih =>
    simp only [btreeInsert]
    split <;> simp_all
    rcases h with h | h
    · exact Or.inl h
    · exact Or.inr (ih h)

theorem mem_of_mem_btreeInsert {q p : Point} {s : List Point}
    (h : q ∈ btreeInsert p s) : q = p ∨ q ∈ s := by
  induction s with
  | nil => simp only [btreeInsert] at h; simp_all
  | cons a rest ih =>
    simp only [btreeInsert] at h
    split at h <;> simp_all
    rcases h with h | h
    · exact Or.inr (Or.inl h)
    · rcases ih h with h | h
      · exact Or.inl h
      · exact Or.inr (Or.inr h)

/-- Inserting a point with finite coordinates into a set whose members
all have finite coordinates makes it a member (no silent conflation
away from NaN). -/
theorem self_mem_btreeInsert {p : Point} {s : List Point}
    (hp : p.allFinite) (hs : ∀ q ∈ s, q.allFinite) :
    p ∈ btreeInsert p s := by
  induction s with
  | nil => simp [btreeInsert]
  | cons a rest ih =>
    simp only [btreeInsert]
    split
    · simp
    · next heq =>
      have : p = a := Point.cmp_eq_of_allFinite hp (hs a (by simp)) heq
      simp [this]
    · have := ih (fun q hq => hs q (by simp [hq]))
      simp [this]

theorem mem_btreeFold_of_mem_init {q : Point} {s : List Point}
    (l : List Point) (h : q ∈ s) :
    q ∈ l.foldl (fun s p => btreeInsert p s) s := by
  induction l generalizing s with
  | nil => simpa using h
  | cons a rest ih => exact ih (btreeInsert_mem_mono a h)

theorem mem_of_mem_btreeFold {q : Point} {s : List Point} {l : List Point}
    (h : q ∈ l.foldl (fun s p => btreeInsert p s) s) : q ∈ s ∨ q ∈ l := by
  induction l generalizing s with
  | nil => exact Or.inl h
  | cons a rest ih =>
    rcases ih h with h2 | h2
    · rcases mem_of_mem_btreeInsert h2 with h3 | h3
      · simp [h3]
      · exact Or.inl h3
    · simp [h2]

theorem mem_btreeFold_of_mem_list {p : Point} {s : List Point}
    {l : List Point} (hs : ∀ q ∈ s, q.allFinite)
    (hl : ∀ q ∈ l, q.allFinite) (h : p ∈ l) :
    p ∈ l.foldl (fun s p => btreeInsert p s) s := by
  induction l generalizing s with
  | nil => simp at h
  | cons a rest ih =>
    have hs2 : ∀ q ∈ btreeInsert a s, q.allFinite := by
      intro q hq
      rcases mem_of_mem_btreeInsert hq with h2 | h2
      · exact h2 ▸ hl a (by simp)
      · exact hs q h2
    rcases List.mem_cons.mp h with h2 | h2
    · subst h2
      exact mem_btreeFold_of_mem_init rest
        (self_mem_btreeInsert (hl p (by simp)) hs)
    · exact ih hs2 (fun q hq => hl q (by simp [hq])) h2

theorem mem_btreeOfList_iff_of_allFinite {p : Point} {l : List Point}
    (hl : ∀ q ∈ l, q.allFinite) : p ∈ btreeOfList l ↔ p ∈ l := by
  constructor
  · intro h
    rcases mem_of_mem_btreeFold (s := []) h with h2 | h2
    · simp at h2
    · exact h2
  · intro h
    exact mem_btreeFold_of_mem_list (by simp) hl h

theorem insertSorted_some_perm {c : Point → Point → Option Ordering}
    {p : Point} {l : List Point}
    (hc : ∀ q ∈ l, (c p q).isSome = true) :
    ∃ out, insertSorted c p l = some out ∧ out.Perm (p :: l) := by
  induction l with
  | nil => exact ⟨[p], rfl, List.Perm.refl _⟩
  | cons a rest ih =>
    have ha : (c p a).isSome = true := hc a (by simp)
    obtain ⟨o, ho⟩ := Option.isSome_iff_exists.mp ha
    obtain ⟨out, hout, hperm⟩ := ih (fun q hq => hc q (by simp [hq]))
    cases o with
    | lt => exact ⟨p :: a :: rest, by simp [insertSorted, ho], List.Perm.refl _⟩
    | eq =>
      refine ⟨a :: out, by simp [insertSorted, ho, hout], ?_⟩
      exact ((hperm.cons a).trans (List.Perm.swap p a rest)).symm.symm
    | gt =>
      refine ⟨a :: out, by simp [insertSorted, ho, hout], ?_⟩
      exact (hperm.cons a).trans (List.Perm.swap p a rest)

theorem sortAux_some_perm {c : Point → Point → Option Ordering}
    {P : Point → Prop}
    (hc : ∀ a b, P a → P b → (c a b).isSome = true) :
    ∀ (l acc : List Point), (∀ q ∈ acc, P q) → (∀ q ∈ l, P q) →
      ∃ out, sortAux c acc l = some out ∧ out.Perm (acc ++ l) := by
  intro l
  induction l with
  | nil => intro acc _ _; exact ⟨acc, rfl, by simp⟩
  | cons p rest ih =>
    intro acc hacc hl
    obtain ⟨acc2, hacc2, hperm2⟩ :=
      insertSorted_some_perm (c := c) (p := p) (l := acc)
        (fun q hq => hc p q (hl p (by simp)) (hacc q hq))
    have hacc2P : ∀ q ∈ acc2, P q := by
      intro q hq
      rcases List.mem_cons.mp (hperm2.mem_iff.mp hq) with h | h
      · exact h ▸ hl p (by simp)
      · exact hacc q h
    obtain ⟨out, hout, hperm⟩ :=
      ih acc2 hacc2P (fun q hq => hl q (by simp [hq]))
    refine ⟨out, by simp [sortAux, hacc2, hout], ?_⟩
    exact hperm.trans ((hperm2.append_right rest).trans List.perm_middle.symm)

theorem sortOpt_some_perm {c : Point → Point → Option Ordering}
    {P : Point → Prop}
    (hc : ∀ a b, P a → P b → (c a b).isSome = true)
    {l : List Point} (hl : ∀ q ∈ l, P q) :
    ∃ out, sortOpt c l = some out ∧ out.Perm l := by
  obtain ⟨out, hout, hperm⟩ := sortAux_some_perm hc l [] (by simp) hl
  exact ⟨out, hout, by simpa using hperm⟩

/-- The spec's slope formula `m = (y2 - y1) / (x2 - x1)`. -/
def slopeOf (seg : LineSegment) : F :=
  (seg.p2.y.sub seg.p1.y).div (seg.p2.x.sub seg.p1.x)

/-- The spec's intercept formula `b = y1 - m * x1`. -/
def interceptOf (seg : LineSegment) : F :=
  seg.p1.y.sub ((slopeOf seg).mul seg.p1.x)

/-- C8: for every segment and every y, a vertical segment
(`p1.x == p2.x`) yields `(p1.x, y)` unconditionally — no bounds check
against the segment's y-range — and otherwise the result is
`((y - b)/m, y)` with `m = (y2-y1)/(x2-x1)` and `b = y1 - m*x1`. -/
theorem intersection_cases (seg : LineSegment) (y : F) :
    (seg.p1.x.beq seg.p2.x = true → intersection seg y = (seg.p1.x, y)) ∧
    (seg.p1.x.beq seg.p2.x = false →
      intersection seg y =
        ((y.sub (interceptOf seg)).div (slopeOf seg), y)) := by
  constructor <;> intro h <;>
    simp [intersection, slopeOf, interceptOf, h]

/-- Witness for C8: a vertical segment spanning y 0..2 queried at
y = 100, far outside its extent, still answers; and a slanted segment
follows the slope/intercept formula. -/
theorem intersection_cases_witness :
    intersection ⟨fp 1 0, fp 1 2⟩ (F.fin 100) = (F.fin 1, F.fin 100) ∧
    intersection ⟨fp 0 0, fp 2 4⟩ (F.fin 1) =
      (((F.fin 1).sub (interceptOf ⟨fp 0 0, fp 2 4⟩)).div
        (slopeOf ⟨fp 0 0, fp 2 4⟩), F.fin 1) :=
  ⟨(intersection_cases ⟨fp 1 0, fp 1 2⟩ (F.fin 100)).1 (by decide),
   (intersection_cases ⟨fp 0 0, fp 2 4⟩ (F.fin 1)).2 (by decide)⟩

/-- C6: the convex hull of the square corners plus the strictly
interior point `(1,1)` contains the four corners and excludes `(1,1)`. -/
theorem convexHull_excludes_interior_point :
    hullInput.convex_hull.isSome = true ∧
    fp 0 0 ∈ pointsOf hullInput.convex_hull ∧
    fp 2 0 ∈ pointsOf hullInput.convex_hull ∧
    fp 2 2 ∈ pointsOf hullInput.convex_hull ∧
    fp 0 2 ∈ pointsOf hullInput.convex_hull ∧
    fp 1 1 ∉ pointsOf hullInput.convex_hull := by with_unfolding_all decide

/-- C9: on a polygon whose second vertex has a NaN y-coordinate, every
operation that sorts points by y — union, difference, split-difference
and convex hull — aborts (the comparator's `partial_cmp` fails),
modelled by `none`. -/
theorem nan_coordinate_aborts_sorting_ops :
    nanPoly.union nanPoly = none ∧
    nanPoly.difference nanPoly = none ∧
    nanPoly.fixed_difference nanPoly = none ∧
    nanPoly.convex_hull = none := by with_unfolding_all decide

/-- Counterexample to C1: `difference(P, emptyPolygon)` on the square
is NOT a no-op on P's point set — the empty second polygon yields zero
(an even count of) intersections at every scanline, so the `inside`
flag toggles on the very first scanline and the two vertices at y = 0
are removed. -/
theorem difference_empty_not_noop :
    squarePoly.difference emptyPoly = some ⟨[fp 2 2, fp 0 2]⟩ ∧
    fp 0 0 ∈ squarePoly.points ∧
    fp 0 0 ∉ pointsOf (squarePoly.difference emptyPoly) := by with_unfolding_all decide

/-- Counterexample to C2: `union(P, P)` can add points that are not
vertices of P — the scanline at y = 0 hits the infinite extension of
the vertical edge from `(2,0)` to `(2,2)`... in fact here it hits the
extension of the edge from `(2,2)` to `(0,4)` at the non-vertex
`(4,0)`. -/
theorem union_self_adds_nonvertex_point :
    (slantPoly.union slantPoly).isSome = true ∧
    fp 4 0 ∈ pointsOf (slantPoly.union slantPoly) ∧
    fp 4 0 ∉ slantPoly.points := by with_unfolding_all decide

/-- C10: `Point`'s ordering is inconsistent with its equality on NaN:
a point with a NaN coordinate compares `Equal` to itself while `==`
denies it; any two points none of whose four coordinate comparisons
succeed compare `Equal`; and the ordered-set insert then conflates such
distinct points (the new one is silently dropped). -/
theorem point_cmp_nan_inconsistent :
    (∀ p : Point, (p.x.isNan || p.y.isNan) = true →
        Point.cmp p p = Ordering.eq ∧ Point.beq p p = false) ∧
    (∀ p q : Point, p.x.lt q.x = false → q.x.lt p.x = false →
        p.y.lt q.y = false → q.y.lt p.y = false →
        Point.cmp p q = Ordering.eq) ∧
    (∀ p q : Point, p.cmp q = Ordering.eq → btreeInsert p [q] = [q]) := by
  refine ⟨?_, ?_, ?_⟩
  · intro p h
    refine ⟨by simp [Point.cmp, F.lt_irrefl], ?_⟩
    rcases Bool.or_eq_true_iff.mp h with h | h
    · have hx : p.x = F.nan := by cases hc : p.x <;> simp_all [F.isNan]
      simp [Point.beq, hx, F.beq]
    · have hy : p.y = F.nan := by cases hc : p.y <;> simp_all [F.isNan]
      cases hb : p.x.beq F.nan <;> simp [Point.beq, hy, hb, F.beq]
  · intro p q h1 h2 h3 h4
    simp [Point.cmp, h1, h2, h3, h4]
  · intro p q h
    simp [btreeInsert, h]

/-- Witness for C10: `(NaN, 0)` is self-Equal yet not self-`==`;
`(NaN, 5)` and `(3, 5)` are distinct yet compare `Equal`, and inserting
the former into a set holding the latter silently drops it. -/
theorem point_cmp_nan_inconsistent_witness :
    (Point.cmp ⟨F.nan, F.fin 0⟩ ⟨F.nan, F.fin 0⟩ = Ordering.eq ∧
      Point.beq ⟨F.nan, F.fin 0⟩ ⟨F.nan, F.fin 0⟩ = false) ∧
    Point.cmp ⟨F.nan, F.fin 5⟩ ⟨F.fin 3, F.fin 5⟩ = Ordering.eq ∧
    btreeInsert ⟨F.nan, F.fin 5⟩ [⟨F.fin 3, F.fin 5⟩] =
      [⟨F.fin 3, F.fin 5⟩] :=
  ⟨point_cmp_nan_inconsistent.1 ⟨F.nan, F.fin 0⟩ (by decide),
   point_cmp_nan_inconsistent.2.1 ⟨F.nan, F.fin 5⟩ ⟨F.fin 3, F.fin 5⟩
     (by decide) (by decide) (by decide) (by decide),
   point_cmp_nan_inconsistent.2.2 ⟨F.nan, F.fin 5⟩ ⟨F.fin 3, F.fin 5⟩
     (by decide)⟩

/-- C4: in `fixed_difference`, a newly encountered scanline that leaves
the `inside` flag false and produced at least one finite intersection
flushes the accumulated result set: it is emitted sorted
counter-clockwise around `self`'s centroid and the set is cleared
before further accumulation. -/
theorem fdScan_flushes_on_outside_with_intersections
    (self other : Polygon) (st : FDState) (p : Point)
    (hnew : p.y.beq st.y = false)
    (hins : (if (interPts other p.y).length % 2 == 0 then !st.inside
             else st.inside) = false)
    (hne : (interPts other p.y).isEmpty = false)
    {srt : List Point}
    (hs : sortOpt (ccwCmp self.centroid) st.result = some srt) :
    fdScan self other st p =
      some { y := p.y, inside := false, result := [],
             polys := st.polys ++ [srt] } := by
  simp only [fdScan, hnew, hins, hne, hs]
  simp

/-- Witness for C4: a state holding one accumulated point meets a new
scanline of the square (two finite intersections, an even count
toggling `inside` from true to false): the point is flushed as a
one-point polygon and the set cleared. -/
theorem fdScan_flushes_witness :
    fdScan squarePoly squarePoly ⟨F.ninf, true, [fp 0 0], []⟩ (fp 5 0) =
      some ⟨F.fin 0, false, [], [[fp 0 0]]⟩ :=
  fdScan_flushes_on_outside_with_intersections squarePoly squarePoly
    ⟨F.ninf, true, [fp 0 0], []⟩ (fp 5 0) (by decide)
    (by with_unfolding_all decide) (by with_unfolding_all decide)
    (by decide)

/-- C5: the "flush remaining points" step of `fixed_difference` runs
inside the per-point loop body: every iteration is the scanline block
followed by the trailing block, and the trailing block emits one more
counter-clockwise-sorted polygon whenever the result set is non-empty,
without clearing the set — so on the square minus the empty polygon the
loop emits one fragment per iteration, four polygons in total. -/
theorem fdTrail_runs_every_iteration :
    (∀ (self other : Polygon) (st : FDState) (p : Point),
        fdStep self other st p = (fdScan self other st p).bind (fdTrail self)) ∧
    (∀ (self : Polygon) (st : FDState) (srt : List Point),
        st.result.isEmpty = false →
        sortOpt (ccwCmp self.centroid) st.result = some srt →
        fdTrail self st = some { st with polys := st.polys ++ [srt] }) ∧
    (squarePoly.fixed_difference emptyPoly).map List.length = some 4 := by
  refine ⟨?_, ?_, ?_⟩
  · intro self other st p
    cases h : fdScan self other st p <;> simp [fdStep, h]
  · intro self st srt h1 h2
    simp [fdTrail, h1, h2]
  · with_unfolding_all decide

/-- Witness for C5: the trailing block on a two-point result set emits
those points as one more polygon and leaves the result set in place. -/
theorem fdTrail_runs_every_iteration_witness :
    fdTrail squarePoly ⟨F.ninf, false, [fp 0 0, fp 2 0], []⟩ =
      some ⟨F.ninf, false, [fp 0 0, fp 2 0], [[fp 0 0, fp 2 0]]⟩ :=
  fdTrail_runs_every_iteration.2.1 squarePoly
    ⟨F.ninf, false, [fp 0 0, fp 2 0], []⟩ [fp 0 0, fp 2 0]
    (by decide) (by with_unfolding_all decide)

/-- The spec's (§4.5) scanline state machine, written from its words:
visiting the y-sorted points, a point on a new distinct scanline first
recomputes the finite intersections of that scanline with `other`'s
edges and toggles the single `inside` flag iff their count is even; a
point sharing the previous scanline's y keeps the current flag.  Each
visited point is paired with the flag in force when it is visited. -/
def scanFlags (other : Polygon) (prev : F) (ins : Bool) :
    List Point → List (Point × Bool)
  | [] => []
  | p :: rest =>
    if p.y.beq prev then (p, ins) :: scanFlags other prev ins rest
    else
      let ins2 := if (interPts other p.y).length % 2 == 0 then !ins else ins
      (p, ins2) :: scanFlags other p.y ins2 rest

/-- The spec's removal rule: every point visited while its flag is true
is removed from the result set, in visiting order. -/
def specRemove : List (Point × Bool) → List Point → List Point
  | [], seed => seed
  | pb :: fl, seed =>
    specRemove fl (if pb.2 then btreeRemove pb.1 seed else seed)

/-- Definition of `difference` as the spec (§4.5) describes it: seed with self's
vertices, sort by y, remove per the scanline state machine, sort the
survivors counter-clockwise around self's centroid. -/
def difference_spec (self other : Polygon) : Option Polygon :=
  let seed := btreeOfList self.points
  match sortOpt ycmp seed with
  | none => none
  | some pts =>
    match sortOpt (ccwCmp self.centroid)
        (specRemove (scanFlags other F.ninf false pts) seed) with
    | none => none
    | some sorted => some ⟨sorted⟩

theorem diffFold_eq_specRemove (other : Polygon) :
    ∀ (pts : List Point) (y0 : F) (ins0 : Bool) (seed : List Point),
      (pts.foldl (diffStep other) ⟨y0, ins0, seed⟩).result =
        specRemove (scanFlags other y0 ins0 pts) seed := by
  intro pts
  induction pts with
  | nil => intro y0 ins0 seed; rfl
  | cons p rest ih =>
    intro y0 ins0 seed
    cases hb : p.y.beq y0 with
    | true =>
      cases hi : ins0 <;>
        simp [List.foldl, diffStep, hb, hi, scanFlags, specRemove, ih]
    | false =>
      cases he : ((interPts other p.y).length % 2 == 0) <;>
        cases hi : ins0 <;>
          simp [List.foldl, diffStep, hb, he, hi, scanFlags, specRemove, ih]

/-- C3: `difference` implements exactly the spec's per-scanline parity
machine — the `inside` flag toggles iff the (deduplicated) finite
intersection count of the new scanline with `other`'s edges is even,
and a point is removed iff the flag in force at its scanline is true,
regardless of its x-position; the flags pair off with the visited
points one for one. -/
theorem difference_matches_scanline_spec :
    (∀ self other : Polygon,
        self.difference other = difference_spec self other) ∧
    (∀ (other : Polygon) (y0 : F) (ins0 : Bool) (pts : List Point),
        (scanFlags other y0 ins0 pts).map Prod.fst = pts) := by
  constructor
  · intro self other
    simp only [Polygon.difference, difference_spec]
    cases h : sortOpt ycmp (btreeOfList self.points) with
    | none => rfl
    | some pts => simp [diffFold_eq_specRemove]
  · intro other y0 ins0 pts
    induction pts generalizing y0 ins0 with
    | nil => rfl
    | cons p rest ih =>
      cases hb : p.y.beq y0 <;> simp [scanFlags, hb, ih]

theorem unionFold_result_mono (self other : Polygon) :
    ∀ (pts : List Point) (st : UnionState) (q : Point),
      q ∈ st.result → q ∈ (pts.foldl (unionStep self other) st).result := by
  intro pts
  induction pts with
  | nil => intro st q h; exact h
  | cons p rest ih =>
    intro st q h
    apply ih
    simp only [unionStep]
    split
    · exact mem_btreeFold_of_mem_init _ h
    · exact h

/-- Amended C2: `union(P, P)` always contains every vertex of P (the
scanline pass only inserts, never removes), but it is NOT limited to
P's deduplicated vertex set — a scanline through one vertex can hit the
infinite extension of another edge at a non-vertex point (see the
counterexample on `slantPoly`). -/
theorem union_self_contains_vertices (P : Polygon)
    (hfin : ∀ p ∈ P.points, p.allFinite) :
    (P.union P).isSome = true ∧
    ∀ p ∈ P.points, p ∈ pointsOf (P.union P) := by
  have hboth : ∀ q ∈ P.points ++ P.points, q.allFinite := by
    intro q hq
    rcases List.mem_append.mp hq with h | h <;> exact hfin q h
  have hseedfin : ∀ q ∈ btreeOfList (P.points ++ P.points), q.allFinite := by
    intro q hq
    rcases mem_of_mem_btreeFold (s := []) hq with h | h
    · simp at h
    · exact hboth q h
  obtain ⟨pts, hpts, hperm⟩ :=
    sortOpt_some_perm (c := ycmp) (P := Point.allFinite)
      (fun a b ha hb => by
        simpa [ycmp] using
          F.pcmp_isSome (F.isNan_eq_false_of_isFinite ha.2)
            (F.isNan_eq_false_of_isFinite hb.2))
      hseedfin
  have hu : P.union P =
      some ⟨(pts.foldl (unionStep P P)
        ⟨F.ninf, btreeOfList (P.points ++ P.points)⟩).result⟩ := by
    simp [Polygon.union, hpts]
  refine ⟨by simp [hu], ?_⟩
  intro p hp
  have hseed : p ∈ btreeOfList (P.points ++ P.points) :=
    (mem_btreeOfList_iff_of_allFinite hboth).mpr (by simp [hp])
  have := unionFold_result_mono P P pts
    ⟨F.ninf, btreeOfList (P.points ++ P.points)⟩ p hseed
  simp [hu, pointsOf, this]

/-- Witness for amended C2 on the square: the union of the square with
itself exists and contains the vertex `(0,0)`. -/
theorem union_self_contains_vertices_witness :
    (squarePoly.union squarePoly).isSome = true ∧
    fp 0 0 ∈ pointsOf (squarePoly.union squarePoly) :=
  ⟨(union_self_contains_vertices squarePoly
      (by simp only [Point.allFinite]; decide)).1,
   (union_self_contains_vertices squarePoly
      (by simp only [Point.allFinite]; decide)).2
     (fp 0 0) (by decide)⟩

theorem foldl_add_isFinite (f : Point → F) :
    ∀ (l : List Point) (s : F), s.isFinite = true →
      (∀ p ∈ l, (f p).isFinite = true) →
      (l.foldl (fun s p => s.add (f p)) s).isFinite = true := by
  intro l
  induction l with
  | nil => intro s hs _; exact hs
  | cons p rest ih =>
    intro s hs hl
    exact ih _ (F.isFinite_add hs (hl p (by simp)))
      (fun q hq => hl q (by simp [hq]))

theorem F.isFinite_div_fin {a : F} {q : ℚ} (ha : a.isFinite = true)
    (hq : q ≠ 0) : (a.div (F.fin q)).isFinite = true := by
  cases a <;> simp_all [F.isFinite, F.div, hq]

theorem centroid_allFinite {self : Polygon} (hne : self.points ≠ [])
    (hfin : ∀ p ∈ self.points, p.allFinite) :
    self.centroid.allFinite := by
  have hn : ((self.points.length : ℚ)) ≠ 0 := by
    simpa using hne
  constructor
  · exact F.isFinite_div_fin
      (foldl_add_isFinite (fun p => p.x) self.points (F.fin 0) rfl
        (fun p hp => (hfin p hp).1)) hn
  · exact F.isFinite_div_fin
      (foldl_add_isFinite (fun p => p.y) self.points (F.fin 0) rfl
        (fun p hp => (hfin p hp).2)) hn

theorem ccwCmp_isSome {c a b : Point} (hc : c.allFinite)
    (ha : a.allFinite) (hb : b.allFinite) :
    (ccwCmp c a b).isSome = true := by
  have hcr : ((b.sub c).cross (a.sub c)).isFinite = true :=
    F.isFinite_sub
      (F.isFinite_mul (F.isFinite_sub hb.1 hc.1) (F.isFinite_sub ha.2 hc.2))
      (F.isFinite_mul (F.isFinite_sub hb.2 hc.2) (F.isFinite_sub ha.1 hc.1))
  have h0 : (F.fin 0).isNan = false := rfl
  have := F.pcmp_isSome (F.isNan_eq_false_of_isFinite hcr) h0
  simpa [ccwCmp] using this

theorem diffFold_no_removal (other : Polygon) :
    ∀ (pts : List Point) (y0 : F) (seed : List Point),
      (∀ p ∈ pts, (interPts other p.y).length % 2 = 1) →
      (pts.foldl (diffStep other) ⟨y0, false, seed⟩).inside = false ∧
      (pts.foldl (diffStep other) ⟨y0, false, seed⟩).result = seed := by
  intro pts
  induction pts with
  | nil => intro y0 seed _; exact ⟨rfl, rfl⟩
  | cons p rest ih =>
    intro y0 seed hodd
    have he : ((interPts other p.y).length % 2 == 0) = false := by
      simp [hodd p (by simp)]
    have h1 : (p :: rest).foldl (diffStep other) ⟨y0, false, seed⟩ =
        rest.foldl (diffStep other) (diffStep other ⟨y0, false, seed⟩ p) := rfl
    cases hb : p.y.beq y0 with
    | true =>
      have hstep : diffStep other ⟨y0, false, seed⟩ p = ⟨y0, false, seed⟩ := by
        simp [diffStep, hb]
      rw [h1, hstep]
      exact ih y0 seed (fun q hq => hodd q (by simp [hq]))
    | false =>
      have hstep : diffStep other ⟨y0, false, seed⟩ p = ⟨p.y, false, seed⟩ := by
        simp [diffStep, hb, he]
      rw [h1, hstep]
      exact ih p.y seed (fun q hq => hodd q (by simp [hq]))

/-- Amended C1: `difference(P, Q)` preserves P's point set — the result
is exactly P's deduplicated vertices, merely re-sorted counter-clockwise
around P's centroid — precisely when every scanline through a vertex of
P meets Q's edge lines in an ODD number of distinct finite points (then
the even-count toggle never fires).  When a scanline's count is even —
zero included, so for an empty Q or one whose edge lines miss the
scanline — the `inside` flag toggles and vertices are dropped (see the
counterexample). -/
theorem difference_preserves_iff_odd_counts (self other : Polygon)
    (hfin : ∀ p ∈ self.points, p.allFinite)
    (hodd : ∀ p ∈ self.points, (interPts other p.y).length % 2 = 1) :
    (self.difference other).isSome = true ∧
    (∀ p ∈ self.points, p ∈ pointsOf (self.difference other)) ∧
    (∀ q ∈ pointsOf (self.difference other), q ∈ self.points) := by
  have hseedmem : ∀ q ∈ btreeOfList self.points, q ∈ self.points := by
    intro q hq
    rcases mem_of_mem_btreeFold (s := []) hq with h | h
    · simp at h
    · exact h
  have hseedfin : ∀ q ∈ btreeOfList self.points, q.allFinite :=
    fun q hq => hfin q (hseedmem q hq)
  obtain ⟨pts, hpts, hperm⟩ :=
    sortOpt_some_perm (c := ycmp) (P := Point.allFinite)
      (fun a b ha hb => by
        simpa [ycmp] using
          F.pcmp_isSome (F.isNan_eq_false_of_isFinite ha.2)
            (F.isNan_eq_false_of_isFinite hb.2))
      hseedfin
  have hfold := diffFold_no_removal other pts F.ninf (btreeOfList self.points)
    (fun p hp => hodd p (hseedmem p (hperm.mem_iff.mp hp)))
  by_cases hnil : self.points = []
  · have hseednil : btreeOfList self.points = [] := by rw [hnil]; rfl
    have hptsnil : pts = [] := by
      rw [hseednil] at hperm
      exact hperm.eq_nil
    have hd : self.difference other = some ⟨[]⟩ := by
      simp [Polygon.difference, hpts, hptsnil, hseednil, sortOpt, sortAux]
    refine ⟨by simp [hd], ?_, ?_⟩
    · intro p hp
      rw [hnil] at hp
      simp at hp
    · intro q hq
      rw [hd] at hq
      simp [pointsOf] at hq
  · have hcent := centroid_allFinite hnil hfin
    obtain ⟨sorted, hsorted, hperm2⟩ :=
      sortOpt_some_perm (c := ccwCmp self.centroid) (P := Point.allFinite)
        (fun a b ha hb => ccwCmp_isSome hcent ha hb) hseedfin
    have hd : self.difference other = some ⟨sorted⟩ := by
      simp only [Polygon.difference, hpts]
      rw [hfold.2, hsorted]
    refine ⟨by simp [hd], ?_, ?_⟩
    · intro p hp
      have hm : p ∈ btreeOfList self.points :=
        (mem_btreeOfList_iff_of_allFinite hfin).mpr hp
      simp [hd, pointsOf, hperm2.mem_iff.mpr hm]
    · intro q hq
      rw [hd] at hq
      simp only [pointsOf] at hq
      exact hseedmem q (hperm2.mem_iff.mp hq)

/-- Witness for amended C1: the square minus `oddTri` (three distinct
finite crossings at each of the square's scanlines) keeps all four
vertices. -/
theorem difference_preserves_iff_odd_counts_witness :
    (squarePoly.difference oddTri).isSome = true ∧
    fp 0 0 ∈ pointsOf (squarePoly.difference oddTri) :=
  ⟨(difference_preserves_iff_odd_counts squarePoly oddTri
      (by simp only [Point.allFinite]; decide)
      (by with_unfolding_all decide)).1,
   (difference_preserves_iff_odd_counts squarePoly oddTri
      (by simp only [Point.allFinite]; decide)
      (by with_unfolding_all decide)).2.1 (fp 0 0) (by decide)⟩

theorem popWhile_getLast (thr : Nat) (p : Point) :
    ∀ l : List Point, (popWhile thr p l).getLast? = l.getLast? := by
  intro l
  induction l with
  | nil => rfl
  | cons a tail ih =>
    cases tail with
    | nil => rfl
    | cons b rest =>
      rw [popWhile]
      split
      · rw [ih, List.getLast?_cons_cons]
      · rfl

theorem popWhile_ne_nil (thr : Nat) (p : Point) :
    ∀ l : List Point, l ≠ [] → popWhile thr p l ≠ [] := by
  intro l
  induction l with
  | nil => intro h; exact absurd rfl h
  | cons a tail ih =>
    intro _
    cases tail with
    | nil => simp [popWhile]
    | cons b rest =>
      rw [popWhile]
      split
      · exact ih (by simp)
      · simp

theorem chainFold_getLast (thr : Nat) :
    ∀ (pts acc : List Point), acc ≠ [] →
      (chainFold thr acc pts).getLast? = acc.getLast? ∧
      chainFold thr acc pts ≠ [] := by
  intro pts
  induction pts with
  | nil => intro acc h; exact ⟨rfl, h⟩
  | cons p rest ih =>
    intro acc h
    have hstep : chainFold thr acc (p :: rest) =
        chainFold thr (p :: popWhile thr p acc) rest := rfl
    obtain ⟨h1, h2⟩ := ih (p :: popWhile thr p acc) (by simp)
    rw [hstep]
    refine ⟨?_, h2⟩
    rw [h1]
    cases hpw : popWhile thr p acc with
    | nil => exact absurd hpw (popWhile_ne_nil thr p acc h)
    | cons c cs =>
      rw [List.getLast?_cons_cons, ← hpw, popWhile_getLast]

theorem chainFold_head (thr : Nat) :
    ∀ (pts acc : List Point), pts ≠ [] →
      (chainFold thr acc pts).head? = pts.getLast? := by
  intro pts
  induction pts with
  | nil => intro _ h; exact absurd rfl h
  | cons p rest ih =>
    intro acc _
    cases rest with
    | nil => simp [chainFold]
    | cons q qs =>
      have hstep : chainFold thr acc (p :: q :: qs) =
          chainFold thr (p :: popWhile thr p acc) (q :: qs) := rfl
      rw [hstep, ih (p :: popWhile thr p acc) (by simp),
        List.getLast?_cons_cons]

/-- C7: on every polygon with at least one point and no NaN
y-coordinate (so the y-sort succeeds), `convex_hull` returns a
non-empty point sequence whose last point equals its first — the
starting point closes the concatenated lower+upper chain. -/
theorem convexHull_closes_loop (self : Polygon) (hne : self.points ≠ [])
    (hnan : ∀ p ∈ self.points, p.y.isNan = false) :
    (self.convex_hull).isSome = true ∧
    pointsOf self.convex_hull ≠ [] ∧
    (pointsOf self.convex_hull).head? =
      (pointsOf self.convex_hull).getLast? := by
  obtain ⟨sorted, hs, hperm⟩ :=
    sortOpt_some_perm (c := ycmp) (P := fun p => p.y.isNan = false)
      (fun a b ha hb => by simpa [ycmp] using F.pcmp_isSome ha hb)
      hnan
  have hsne : sorted ≠ [] := by
    intro h
    rw [h] at hperm
    exact hne hperm.symm.eq_nil
  obtain ⟨s, srest, hsort⟩ : ∃ s srest, sorted = s :: srest := by
    cases sorted with
    | nil => exact absurd rfl hsne
    | cons s srest => exact ⟨s, srest, rfl⟩
  have hlow0 : chainFold 2 [] sorted = chainFold 2 [s] srest := by
    rw [hsort]; rfl
  obtain ⟨hlowLast, hlowne⟩ := chainFold_getLast 2 srest [s] (by simp)
  have hlowLast2 : (chainFold 2 [] sorted).getLast? = some s := by
    rw [hlow0, hlowLast]; rfl
  have hlowne2 : chainFold 2 [] sorted ≠ [] := by rw [hlow0]; exact hlowne
  have hrevne : sorted.reverse ≠ [] := by
    simpa using hsne
  obtain ⟨hupLast, hupne⟩ :=
    chainFold_getLast ((chainFold 2 [] sorted).length + 1) sorted.reverse
      (chainFold 2 [] sorted) hlowne2
  have hupHead :
      (chainFold ((chainFold 2 [] sorted).length + 1)
        (chainFold 2 [] sorted) sorted.reverse).head? = some s := by
    rw [chainFold_head _ sorted.reverse _ hrevne, List.getLast?_reverse,
      hsort]
    rfl
  have hch : self.convex_hull =
      some ⟨(chainFold ((chainFold 2 [] sorted).length + 1)
        (chainFold 2 [] sorted) sorted.reverse).reverse⟩ := by
    simp [Polygon.convex_hull, hs]
  rw [hch]
  refine ⟨rfl, by simpa [pointsOf] using hupne, ?_⟩
  simp only [pointsOf, List.head?_reverse, List.getLast?_reverse]
  rw [hupHead, hupLast, hlowLast2]

/-- Witness for C7 on the square: the hull exists, is non-empty, and
its first and last points agree. -/
theorem convexHull_closes_loop_witness :
    (squarePoly.convex_hull).isSome = true ∧
    pointsOf squarePoly.convex_hull ≠ [] ∧
    (pointsOf squarePoly.convex_hull).head? =
      (pointsOf squarePoly.convex_hull).getLast? :=
  convexHull_closes_loop squarePoly (by decide) (by decide)
